import Mathlib

/-!
Shallow embedding of the rdv-taxi-backend event-sync engine (src/index.js).

The backend keeps a per-id last-write-wins store of calendar events in a JSON
file (`db.eventsById`), mutated by the `POST /events/upsert` and
`POST /events/delete` handlers and queried by `GET /events`.  An in-memory
subscription registry backs the push dispatcher (`/subscribe`, `sendTestToAll`).

Modelling conventions:
- JS object `eventsById` becomes a `List EventRec`; a key lookup is
  `List.find?` on the `id` field and a keyed write (`db.eventsById[id] = r`)
  replaces the matching entry in place or appends a new one, matching JS
  property-insertion order so that `Object.values` is the list itself.
- JS timestamps (`updatedAt`, `Date.now()`) are `Nat` milliseconds; a missing
  or `null`/falsy `updatedAt` on an incoming payload is `Option.none` (the
  code collapses these to `0` via `Number(x || 0)`, so an explicit `0` is
  also represented by the defaulted value `0`).
- String/boolean coercions (`String(x || "")`, `!!x`) are mirrored by typed
  fields plus `Option.getD` defaults on the incoming candidate.
-/

namespace RdvTaxi

/-- A stored event record: the value shape of `db.eventsById[id]`. -/
structure EventRec where
  id : String
  title : String
  start : String
  allDay : Bool
  reminderMinutes : Option Int
  updatedAt : Nat
  deleted : Bool
deriving DecidableEq, Repr

/-- An incoming upsert candidate (one element of `body.events`); `none`
fields model absent/null JSON members before the handler's coercions. -/
structure Candidate where
  id : String
  title : Option String
  start : Option String
  allDay : Bool
  reminderMinutes : Option Int
  updatedAt : Option Nat
  deleted : Bool
deriving DecidableEq, Repr

/-- The event store: `Object.values(db.eventsById)` in insertion order. -/
abbrev Store := List EventRec

/-- `db.eventsById[i]`: lookup by id. -/
def getById (db : Store) (i : String) : Option EventRec :=
  db.find? (fun e => e.id == i)

/-- `db.eventsById[i] = r`: replace the entry for `i` in place (a JS object
holds at most one entry per key, so replacing the first match is exact), or
append a new entry preserving insertion order. -/
def setById : Store → String → EventRec → Store
  | [], _, r => [r]
  | e :: tl, i, r => if e.id == i then r :: tl else e :: setById tl i r

/-- The record object built in the upsert handler:
`{id: String(inc.id), title: String(inc.title || ""), start: String(inc.start || ""),
  allDay: !!inc.allDay, reminderMinutes: ... , updatedAt: incU || Date.now(),
  deleted: !!inc.deleted}`. -/
def normalizeUpsert (now : Nat) (inc : Candidate) : EventRec :=
  { id := inc.id
    title := inc.title.getD ""
    start := inc.start.getD ""
    allDay := inc.allDay
    reminderMinutes := inc.reminderMinutes
    updatedAt := if inc.updatedAt.getD 0 = 0 then now else inc.updatedAt.getD 0
    deleted := inc.deleted }

/-- One iteration of the upsert loop: skip a falsy id, otherwise accept when
`!curr || incU >= curU` and write the normalized record; returns the new
store and the contribution to the `upserted` counter. -/
def upsertOne (now : Nat) (db : Store) (inc : Candidate) : Store × Nat :=
  if inc.id = "" then (db, 0)
  else
    match getById db inc.id with
    | none => (setById db inc.id (normalizeUpsert now inc), 1)
    | some curr =>
      if curr.updatedAt ≤ inc.updatedAt.getD 0 then
        (setById db inc.id (normalizeUpsert now inc), 1)
      else
        (db, 0)

/-- The body of `POST /events/upsert` after the empty-batch early return:
fold the upsert loop over the batch, accumulating the accepted count. -/
def applyUpserts (now : Nat) (db : Store) (list : List Candidate) : Store × Nat :=
  list.foldl (fun acc inc =>
    let r := upsertOne now acc.1 inc
    (r.1, acc.2 + r.2)) (db, 0)

/-- The fresh tombstone object built in the delete handler when no record
exists for the id. -/
def mkTombstone (i : String) (markU : Nat) : EventRec :=
  { id := i
    title := ""
    start := ""
    allDay := false
    reminderMinutes := none
    updatedAt := markU
    deleted := true }

/-- One iteration of the delete loop: skip a falsy id; tombstone an existing
record when `markU >= curr.updatedAt` (spreading `curr` and overriding only
`deleted` and `updatedAt`), create a fresh tombstone when absent. -/
def deleteOne (markU : Nat) (db : Store) (i : String) : Store × Nat :=
  if i = "" then (db, 0)
  else
    match getById db i with
    | some curr =>
      if curr.updatedAt ≤ markU then
        (setById db i { curr with deleted := true, updatedAt := markU }, 1)
      else
        (db, 0)
    | none => (setById db i (mkTombstone i markU), 1)

/-- The body of `POST /events/delete` after the empty-batch early return. -/
def applyDeletes (markU : Nat) (db : Store) (ids : List String) : Store × Nat :=
  ids.foldl (fun acc i =>
    let r := deleteOne markU acc.1 i
    (r.1, acc.2 + r.2)) (db, 0)

/-- `GET /events?since=...`: filter strictly-newer records when `since > 0`
(all records otherwise), then sort ascending by `updatedAt`. -/
def listSince (db : Store) (since : Nat) : List EventRec :=
  (if 0 < since then db.filter (fun e => since < e.updatedAt) else db).mergeSort
    (fun a b => a.updatedAt ≤ b.updatedAt)

/-- A handler response: `res.json({ok:true, <count>})` or
`res.status(400).json({error: msg})`. -/
inductive ApiResp where
  | ok (count : Nat)
  | invalid (msg : String)
deriving DecidableEq, Repr

/-- `POST /events/upsert` including the empty-batch early return
`if (!list.length) return res.json({ok:true, upserted:0})`. -/
def upsertHandler (now : Nat) (db : Store) (list : List Candidate) :
    Store × ApiResp :=
  if list = [] then (db, .ok 0)
  else
    let r := applyUpserts now db list
    (r.1, .ok r.2)

/-- `markU := Number(updatedAt || Date.now())` of the delete handler. -/
def markUOf (now : Nat) (updatedAt : Option Nat) : Nat :=
  if updatedAt.getD 0 = 0 then now else updatedAt.getD 0

/-- `POST /events/delete` including the empty-batch early return
`if (!list.length) return res.json({ok:true, deleted:0})`. -/
def deleteHandler (now : Nat) (db : Store) (updatedAt : Option Nat)
    (ids : List String) : Store × ApiResp :=
  if ids = [] then (db, .ok 0)
  else
    let r := applyDeletes (markUOf now updatedAt) db ids
    (r.1, .ok r.2)

/-- An entry of the in-memory `subscriptions` array:
`{...sub, ua, createdAt}` with `keys.{p256dh,auth}` flattened. -/
structure Subscription where
  endpoint : String
  p256dh : String
  auth : String
  ua : String
  createdAt : Nat
deriving DecidableEq, Repr

/-- `POST /subscribe`: validate `endpoint`/`keys.p256dh`/`keys.auth`
(empty string models a falsy/absent field), then append unless an entry
with the same endpoint already exists; always answer the current count. -/
def register (subs : List Subscription) (endpoint p256dh auth ua : String)
    (now : Nat) : List Subscription × ApiResp :=
  if endpoint = "" ∨ p256dh = "" ∨ auth = "" then
    (subs, .invalid "Subscription invalide")
  else if subs.any (fun s => s.endpoint == endpoint) then
    (subs, .ok subs.length)
  else
    let subs2 := subs ++ [{ endpoint := endpoint, p256dh := p256dh,
                            auth := auth, ua := ua, createdAt := now }]
    (subs2, .ok subs2.length)

/-- Outcome of one `webpush.sendNotification` attempt; a failure carries
`err.statusCode` when the error has one. -/
inductive Delivery where
  | delivered
  | failed (statusCode : Option Nat)
deriving DecidableEq, Repr

/-- The retention test of the catch branch: an errored subscription is kept
unless `err.statusCode === 404 || err.statusCode === 410`. -/
def keepAfter : Delivery → Bool
  | .delivered => true
  | .failed st => !(st == some 404 || st == some 410)

/-- The delivery loop of `sendTestToAll`: accumulates `(sent, failed,
stillValid)` over the subscriptions in order. -/
def pushRound (outcome : Subscription → Delivery)
    (subs : List Subscription) : Nat × Nat × List Subscription :=
  subs.foldl (fun acc sub =>
    match outcome sub with
    | .delivered => (acc.1 + 1, acc.2.1, acc.2.2 ++ [sub])
    | .failed st =>
      (acc.1, acc.2.1 + 1,
        if st == some 404 || st == some 410 then acc.2.2
        else acc.2.2 ++ [sub])) (0, 0, [])

/-- Response of the push dispatcher: success carries `(sent, failed, subs)`,
the early returns are the 500 (missing VAPID) and 400 (no subscription)
precondition failures. -/
inductive PushResp where
  | ok (sent failed subs : Nat)
  | precondition (msg : String)
deriving DecidableEq, Repr

/-- `sendTestToAll`: precondition checks, then the delivery round;
`outcome` abstracts the push transport's per-subscription result.  Returns
the replaced registry (`subscriptions.length = 0; subscriptions.push(...)`)
and the response. -/
def sendTestToAll (hasVapid : Bool) (subs : List Subscription)
    (outcome : Subscription → Delivery) : List Subscription × PushResp :=
  if !hasVapid then (subs, .precondition "VAPID manquant")
  else if subs.isEmpty then (subs, .precondition "Aucun abonnement enregistré")
  else
    let r := pushRound outcome subs
    (r.2.2, .ok r.1 r.2.1 r.2.2.length)

/-- A single mutation submission addressed to one id — one element of an
upsert batch, or one id of a delete batch with its mark timestamp. -/
inductive Submission where
  | up (c : Candidate)
  | del (i : String) (markU : Nat)
deriving DecidableEq, Repr

/-- The id a submission addresses. -/
def subId : Submission → String
  | .up c => c.id
  | .del i _ => i

/-- The timestamp a submission carries (defaulted as the handlers do). -/
def subU : Submission → Nat
  | .up c => c.updatedAt.getD 0
  | .del _ m => m

/-- The `deleted` flag the submission writes when accepted. -/
def subDeleted : Submission → Bool
  | .up c => c.deleted
  | .del _ _ => true

/-- Apply one submission to the store through the corresponding handler
loop body. -/
def applySub (now : Nat) (db : Store) : Submission → Store
  | .up c => (upsertOne now db c).1
  | .del i m => (deleteOne m db i).1

/-- The effect of one submission on the single store slot it addresses:
the projection of `applySub` to `getById · (subId s)`. -/
def stepProj (now : Nat) (st : Option EventRec) : Submission → Option EventRec
  | .up c =>
    if c.id = "" then st
    else
      match st with
      | none => some (normalizeUpsert now c)
      | some curr =>
        if curr.updatedAt ≤ c.updatedAt.getD 0 then some (normalizeUpsert now c)
        else some curr
  | .del i m =>
    if i = "" then st
    else
      match st with
      | some curr =>
        if curr.updatedAt ≤ m then some { curr with deleted := true, updatedAt := m }
        else some curr
      | none => some (mkTombstone i m)

/-- One API-level mutation: an upsert batch or a delete batch, each with the
wall-clock time `now` observed by `Date.now()` during that request. -/
inductive Op where
  | upsert (now : Nat) (list : List Candidate)
  | tombstone (now : Nat) (updatedAt : Option Nat) (ids : List String)
deriving Repr

/-- The wall-clock reading an operation was processed with. -/
def opNow : Op → Nat
  | .upsert now _ => now
  | .tombstone now _ _ => now

/-- Apply one API mutation to the store. -/
def applyOp (db : Store) : Op → Store
  | .upsert now l => (applyUpserts now db l).1
  | .tombstone now u ids => (applyDeletes (markUOf now u) db ids).1

/-- The store reached from the empty store by a sequence of mutations. -/
def runOps (ops : List Op) : Store :=
  ops.foldl applyOp []

/-! ### Store lemmas -/

theorem getById_setById_self (db : Store) (i : String) (r : EventRec)
    (hr : r.id = i) :
    getById (setById db i r) i = some r := by
  induction db with
  | nil => simp [setById, getById, List.find?, hr]
  | cons e tl ih =>
    by_cases he : e.id = i
    · simp [setById, getById, List.find?, he, hr]
    · have h1 : (e.id == i) = false := by simpa using he
      simpa [setById, getById, List.find?, h1] using ih

theorem getById_none_setById (db : Store) (i : String) (r : EventRec)
    (h : getById db i = none) :
    setById db i r = db ++ [r] := by
  induction db with
  | nil => simp [setById]
  | cons e tl ih =>
    unfold getById at h
    rcases hcase : (e.id == i) with _ | _
    · rw [List.find?_cons_of_neg _ (by simp [hcase])] at h
      simp [setById, hcase, ih h]
    · exact absurd hcase (by simpa using List.find?_eq_none.mp h e (List.mem_cons_self e tl))

theorem mem_setById (db : Store) (i : String) (r e : EventRec)
    (h : e ∈ setById db i r) : e ∈ db ∨ e = r := by
  induction db with
  | nil => simpa [setById] using h
  | cons x tl ih =>
    rcases hcase : (x.id == i) with _ | _
    · simp only [setById, hcase, Bool.false_eq_true, if_false, List.mem_cons] at h
      rcases h with h | h
      · exact Or.inl (by simp [h])
      · rcases ih h with h2 | h2
        · exact Or.inl (List.mem_cons_of_mem _ h2)
        · exact Or.inr h2
    · simp only [setById, hcase, if_true, List.mem_cons] at h
      rcases h with h | h
      · exact Or.inr h
      · exact Or.inl (List.mem_cons_of_mem _ h)

theorem getById_mem (db : Store) (i : String) (r : EventRec)
    (h : getById db i = some r) : r ∈ db ∧ r.id = i := by
  refine ⟨List.mem_of_find?_eq_some h, ?_⟩
  simpa using List.find?_some h

/-! ### Projection of the handler loops to a single id slot -/

theorem getById_applySub (now : Nat) (db : Store) (s : Submission) :
    getById (applySub now db s) (subId s) = stepProj now (getById db (subId s)) s := by
  cases s with
  | up c =>
    by_cases hid : c.id = ""
    · simp [applySub, subId, upsertOne, stepProj, hid]
    · rcases hcur : getById db c.id with _ | curr
      · have hsid : (normalizeUpsert now c).id = c.id := rfl
        simp [applySub, subId, upsertOne, stepProj, hid, hcur,
          getById_setById_self db c.id _ hsid]
      · by_cases hle : curr.updatedAt ≤ c.updatedAt.getD 0
        · have hsid : (normalizeUpsert now c).id = c.id := rfl
          simp [applySub, subId, upsertOne, stepProj, hid, hcur, hle,
            getById_setById_self db c.id _ hsid]
        · simp [applySub, subId, upsertOne, stepProj, hid, hcur, hle]
  | del i m =>
    by_cases hid : i = ""
    · simp [applySub, subId, deleteOne, stepProj, hid]
    · rcases hcur : getById db i with _ | curr
      · have hsid : (mkTombstone i m).id = i := rfl
        simp [applySub, subId, deleteOne, stepProj, hid, hcur,
          getById_setById_self db i _ hsid]
      · by_cases hle : curr.updatedAt ≤ m
        · have hcid : curr.id = i := (getById_mem db i curr hcur).2
          have hsid : ({ curr with deleted := true, updatedAt := m } : EventRec).id = i := hcid
          simp [applySub, subId, deleteOne, stepProj, hid, hcur, hle,
            getById_setById_self db i _ hsid]
        · simp [applySub, subId, deleteOne, stepProj, hid, hcur, hle]

theorem getById_foldl_applySub (now : Nat) (i : String) (l : List Submission) :
    ∀ db : Store, (∀ s ∈ l, subId s = i) →
      getById (l.foldl (applySub now) db) i = l.foldl (stepProj now) (getById db i) := by
  induction l with
  | nil =>
    intro db _
    rfl
  | cons s tl ih =>
    intro db hall
    have hs : subId s = i := hall s (List.mem_cons_self s tl)
    have h1 : getById (applySub now db s) i = stepProj now (getById db i) s := by
      rw [← hs]
      exact getById_applySub now db s
    simp only [List.foldl_cons]
    rw [ih (applySub now db s) (fun t ht => hall t (List.mem_cons_of_mem s ht)), h1]

/-- The record a single accepted submission leaves in the store slot:
its id, conflict timestamp and deleted flag come from the submission, and
an upsert writes exactly its normalized record. -/
def Wins (now : Nat) (i : String) (s : Submission) (r : EventRec) : Prop :=
  r.id = i ∧ r.updatedAt = subU s ∧ r.deleted = subDeleted s ∧
    ∀ c : Candidate, s = .up c → r = normalizeUpsert now c

theorem stepProj_reject (now : Nat) (st : EventRec) (s : Submission)
    (hid : subId s ≠ "") (hlt : subU s < st.updatedAt) :
    stepProj now (some st) s = some st := by
  cases s with
  | up c =>
    have hc : c.id ≠ "" := by simpa [subId] using hid
    have hnle : ¬ st.updatedAt ≤ c.updatedAt.getD 0 := by
      simp only [subU] at hlt
      omega
    simp [stepProj, hc, hnle]
  | del j m =>
    have hj : j ≠ "" := by simpa [subId] using hid
    have hnle : ¬ st.updatedAt ≤ m := by
      simp only [subU] at hlt
      omega
    simp [stepProj, hj, hnle]

theorem stepProj_accept (now : Nat) (i : String) (st : EventRec) (s : Submission)
    (hsid : subId s = i) (hstid : st.id = i) (hne : i ≠ "")
    (hge : st.updatedAt ≤ subU s) (hpos : 0 < subU s) :
    ∃ st1 : EventRec, stepProj now (some st) s = some st1 ∧ Wins now i s st1 := by
  cases s with
  | up c =>
    simp only [subId] at hsid
    have hc : c.id ≠ "" := hsid ▸ hne
    have hle : st.updatedAt ≤ c.updatedAt.getD 0 := by simpa [subU] using hge
    have hu0 : c.updatedAt.getD 0 ≠ 0 := by
      simp only [subU] at hpos
      omega
    refine ⟨normalizeUpsert now c, by simp [stepProj, hc, hle], hsid ▸ rfl, ?_, rfl, ?_⟩
    · simp [normalizeUpsert, subU, hu0]
    · intro c2 hc2
      cases hc2
      rfl
  | del j m =>
    simp only [subId] at hsid
    have hj : j ≠ "" := hsid ▸ hne
    have hle : st.updatedAt ≤ m := by simpa [subU] using hge
    refine ⟨{ st with deleted := true, updatedAt := m }, by simp [stepProj, hj, hle],
      hstid, rfl, rfl, ?_⟩
    intro c2 hc2
    cases hc2

theorem stepProj_none_accept (now : Nat) (i : String) (s : Submission)
    (hsid : subId s = i) (hne : i ≠ "") (hpos : 0 < subU s) :
    ∃ st1 : EventRec, stepProj now none s = some st1 ∧ Wins now i s st1 := by
  cases s with
  | up c =>
    simp only [subId] at hsid
    have hc : c.id ≠ "" := hsid ▸ hne
    have hu0 : c.updatedAt.getD 0 ≠ 0 := by
      simp only [subU] at hpos
      omega
    refine ⟨normalizeUpsert now c, by simp [stepProj, hc], hsid ▸ rfl, ?_, rfl, ?_⟩
    · simp [normalizeUpsert, subU, hu0]
    · intro c2 hc2
      cases hc2
      rfl
  | del j m =>
    simp only [subId] at hsid
    have hj : j ≠ "" := hsid ▸ hne
    refine ⟨mkTombstone j m, by simp [stepProj, hj], hsid ▸ rfl, rfl, rfl, ?_⟩
    intro c2 hc2
    cases hc2

theorem lwwProj_key (now : Nat) (i : String) (hne : i ≠ "") :
    ∀ (l : List Submission) (st : EventRec),
      st.id = i →
      (∀ s ∈ l, subId s = i) →
      (∀ s ∈ l, 0 < subU s) →
      (∀ s ∈ l, subU s ≠ st.updatedAt) →
      (l.map subU).Nodup →
      ∃ r : EventRec, l.foldl (stepProj now) (some st) = some r ∧ r.id = i ∧
        ((∀ s ∈ l, subU s < st.updatedAt) → r = st) ∧
        (∀ sm ∈ l, st.updatedAt < subU sm → (∀ s ∈ l, subU s ≤ subU sm) →
          Wins now i sm r) := by
  intro l
  induction l with
  | nil =>
    intro st hstid _ _ _ _
    exact ⟨st, rfl, hstid, fun _ => rfl, fun sm hsm => absurd hsm (List.not_mem_nil sm)⟩
  | cons s tl ih =>
    intro st hstid hall hpos hfresh hnd
    have hsid : subId s = i := hall s (List.mem_cons_self s tl)
    have hspos : 0 < subU s := hpos s (List.mem_cons_self s tl)
    have hsne : subU s ≠ st.updatedAt := hfresh s (List.mem_cons_self s tl)
    have hnd2 : subU s ∉ tl.map subU ∧ (tl.map subU).Nodup := by
      rw [List.map_cons] at hnd
      exact List.nodup_cons.mp hnd
    have htl_all : ∀ t ∈ tl, subId t = i := fun t ht => hall t (List.mem_cons_of_mem s ht)
    have htl_pos : ∀ t ∈ tl, 0 < subU t := fun t ht => hpos t (List.mem_cons_of_mem s ht)
    have htl_ne_s : ∀ t ∈ tl, subU t ≠ subU s := by
      intro t ht heq
      exact hnd2.1 (heq ▸ List.mem_map_of_mem subU ht)
    by_cases hlt : subU s < st.updatedAt
    · -- the head submission is rejected, the slot keeps st
      have hstep : stepProj now (some st) s = some st :=
        stepProj_reject now st s (hsid ▸ hne) hlt
      have htl_fresh : ∀ t ∈ tl, subU t ≠ st.updatedAt :=
        fun t ht => hfresh t (List.mem_cons_of_mem s ht)
      rcases ih st hstid htl_all htl_pos htl_fresh hnd2.2 with ⟨r, hr, hrid, hrall, hrmax⟩
      refine ⟨r, by simpa [hstep] using hr, hrid, ?_, ?_⟩
      · intro hsmall
        exact hrall fun t ht => hsmall t (List.mem_cons_of_mem s ht)
      · intro sm hsm hgt hmax
        rcases List.mem_cons.mp hsm with rfl | hsm2
        · exact absurd hgt (by omega)
        · exact hrmax sm hsm2 hgt fun t ht => hmax t (List.mem_cons_of_mem s ht)
    · -- the head submission is accepted and becomes the new slot value
      have hgt : st.updatedAt < subU s := by omega
      rcases stepProj_accept now i st s hsid hstid hne (Nat.le_of_lt hgt) hspos with
        ⟨st1, hstep, hwin1⟩
      have hst1id : st1.id = i := hwin1.1
      have hst1u : st1.updatedAt = subU s := hwin1.2.1
      have htl_fresh1 : ∀ t ∈ tl, subU t ≠ st1.updatedAt := by
        intro t ht
        rw [hst1u]
        exact htl_ne_s t ht
      rcases ih st1 hst1id htl_all htl_pos htl_fresh1 hnd2.2 with ⟨r, hr, hrid, hrall, hrmax⟩
      refine ⟨r, by simpa [hstep] using hr, hrid, ?_, ?_⟩
      · intro hsmall
        exact absurd (hsmall s (List.mem_cons_self s tl)) (by omega)
      · intro sm hsm _ hmax
        rcases List.mem_cons.mp hsm with rfl | hsm2
        · have : ∀ t ∈ tl, subU t < st1.updatedAt := by
            intro t ht
            have h1 : subU t ≤ subU sm := hmax t (List.mem_cons_of_mem sm ht)
            have h2 : subU t ≠ subU sm := htl_ne_s t ht
            rw [hst1u]
            omega
          exact (hrall this) ▸ hwin1
        · have hsm_gt : st1.updatedAt < subU sm := by
            have h1 : subU s ≤ subU sm := hmax s (List.mem_cons_self s tl)
            have h2 : subU sm ≠ subU s := htl_ne_s sm hsm2
            rw [hst1u]
            omega
          exact hrmax sm hsm2 hsm_gt fun t ht => hmax t (List.mem_cons_of_mem s ht)

/-! ### C1: LWW convergence / reorder-invariance -/

/-- An upsert used to exhibit order dependence of tombstone content fields. -/
def cexUp : Candidate :=
  { id := "a", title := some "X", start := none, allDay := false,
    reminderMinutes := none, updatedAt := some 1, deleted := false }

/-- C1 counterexample: the claim says the final state for an id is the record
of the submission with greatest `updatedAt`, regardless of arrival order.
For the set {upsert (updatedAt 1, title "X"), delete (markU 2)} of
submissions for id "a" (strictly increasing timestamps 1 < 2), the two
arrival orders leave different stored records: delete-after-upsert keeps
title "X" in the tombstone, upsert-after-delete leaves title "". -/
theorem lww_reorder_counterexample :
    getById (([Submission.up cexUp, Submission.del "a" 2]).foldl (applySub 9) []) "a" ≠
      getById (([Submission.del "a" 2, Submission.up cexUp]).foldl (applySub 9) []) "a" := by
  decide

/-- C1 (amended): for any finite set of upsert/delete submissions for one id,
each carrying a positive `updatedAt` and all timestamps pairwise distinct,
applying them in any arrival order from the empty store leaves, for that id,
a record whose id, `updatedAt` and `deleted` flag are those of the submission
with the numerically greatest `updatedAt`; when that submission is an upsert
the stored record is exactly its normalized record (content fields of a
tombstone left by a winning delete may depend on arrival order). -/
theorem lww_reorder_projection (now : Nat) (i : String) (l : List Submission)
    (smax : Submission)
    (hne : i ≠ "")
    (hall : ∀ s ∈ l, subId s = i)
    (hpos : ∀ s ∈ l, 0 < subU s)
    (hnd : (l.map subU).Nodup)
    (hmem : smax ∈ l)
    (hmax : ∀ s ∈ l, subU s ≤ subU smax) :
    ∃ r : EventRec, getById (l.foldl (applySub now) []) i = some r ∧
      r.id = i ∧ r.updatedAt = subU smax ∧ r.deleted = subDeleted smax ∧
      ∀ c : Candidate, smax = Submission.up c → r = normalizeUpsert now c := by
  have hsim : getById (l.foldl (applySub now) []) i =
      l.foldl (stepProj now) (getById ([] : Store) i) :=
    getById_foldl_applySub now i l [] hall
  cases l with
  | nil => cases hmem
  | cons s0 tl =>
    have hs0id : subId s0 = i := hall s0 (List.mem_cons_self s0 tl)
    have hs0pos : 0 < subU s0 := hpos s0 (List.mem_cons_self s0 tl)
    rcases stepProj_none_accept now i s0 hs0id hne hs0pos with ⟨st1, hstep, hwin1⟩
    have hnd2 : subU s0 ∉ tl.map subU ∧ (tl.map subU).Nodup := by
      rw [List.map_cons] at hnd
      exact List.nodup_cons.mp hnd
    have htl_ne : ∀ t ∈ tl, subU t ≠ subU s0 := by
      intro t ht heq
      exact hnd2.1 (heq ▸ List.mem_map_of_mem subU ht)
    have htl_all : ∀ t ∈ tl, subId t = i :=
      fun t ht => hall t (List.mem_cons_of_mem s0 ht)
    have htl_pos : ∀ t ∈ tl, 0 < subU t :=
      fun t ht => hpos t (List.mem_cons_of_mem s0 ht)
    have htl_fresh : ∀ t ∈ tl, subU t ≠ st1.updatedAt := by
      intro t ht
      rw [hwin1.2.1]
      exact htl_ne t ht
    rcases lwwProj_key now i hne tl st1 hwin1.1 htl_all htl_pos htl_fresh hnd2.2 with
      ⟨r, hr, hrid, hrall, hrmax⟩
    have hfold : getById (((s0 :: tl)).foldl (applySub now) []) i = some r := by
      rw [hsim]
      have hstart : getById ([] : Store) i = none := rfl
      simpa [hstart, hstep] using hr
    have hwinr : Wins now i smax r := by
      rcases List.mem_cons.mp hmem with rfl | hm2
      · have hsmall : ∀ t ∈ tl, subU t < st1.updatedAt := by
          intro t ht
          have h1 : subU t ≤ subU smax := hmax t (List.mem_cons_of_mem smax ht)
          have h2 : subU t ≠ subU smax := htl_ne t ht
          rw [hwin1.2.1]
          omega
        exact (hrall hsmall) ▸ hwin1
      · have hsm_gt : st1.updatedAt < subU smax := by
          have h1 : subU s0 ≤ subU smax := hmax s0 (List.mem_cons_self s0 tl)
          have h2 : subU smax ≠ subU s0 := htl_ne smax hm2
          rw [hwin1.2.1]
          omega
        exact hrmax smax hm2 hsm_gt fun t ht => hmax t (List.mem_cons_of_mem s0 ht)
    exact ⟨r, hfold, hwinr.1, hwinr.2.1, hwinr.2.2.1, hwinr.2.2.2⟩

/-- C1 witness: the amended theorem applied to the concrete submission set
of the counterexample, in the order upsert-then-delete: the winning
submission is the delete with timestamp 2. -/
theorem lww_reorder_projection_witness :
    ((getById (([Submission.up cexUp, Submission.del "a" 2]).foldl (applySub 9) []) "a").map
      fun r => (r.updatedAt, r.deleted)) = some (2, true) := by
  rcases lww_reorder_projection 9 "a" [Submission.up cexUp, Submission.del "a" 2]
      (Submission.del "a" 2) (by decide) (by decide) (by decide) (by decide)
      (by decide) (by decide) with ⟨r, h1, _, hu, hd, _⟩
  rw [h1]
  simp [hu, hd, subU, subDeleted]

/-! ### C2: upsert acceptance condition -/

/-- C2: for a candidate with a non-empty id, the upsert loop accepts exactly
when the candidate's defaulted `updatedAt` is greater-or-equal to the stored
record's `updatedAt` (0 when the id is absent); a candidate with a missing
id is skipped silently and the rest of the batch proceeds unchanged. -/
theorem upsert_acceptance (now : Nat) (db : Store) (inc : Candidate)
    (l1 l2 : List Candidate) :
    (inc.id ≠ "" →
      ((upsertOne now db inc).2 = 1 ↔
        ((getById db inc.id).map (fun r => r.updatedAt)).getD 0 ≤ inc.updatedAt.getD 0)) ∧
    (inc.id = "" →
      applyUpserts now db (l1 ++ inc :: l2) = applyUpserts now db (l1 ++ l2)) := by
  constructor
  · intro hid
    rcases hcur : getById db inc.id with _ | curr
    · simp [upsertOne, hid, hcur]
    · by_cases hle : curr.updatedAt ≤ inc.updatedAt.getD 0
      · simp [upsertOne, hid, hcur, hle]
      · simp [upsertOne, hid, hcur, hle]
  · intro hid
    have hstep : ∀ acc : Store × Nat,
        (fun acc (inc : Candidate) =>
          let r := upsertOne now acc.1 inc
          (r.1, acc.2 + r.2)) acc inc = acc := by
      intro acc
      simp [upsertOne, hid]
    simp [applyUpserts, List.foldl_append, hstep]

/-- C2 witness: a candidate with id "w" and `updatedAt` 5 against the empty
store is accepted. -/
theorem upsert_acceptance_witness :
    (upsertOne 7 []
      { id := "w", title := none, start := none, allDay := false,
        reminderMinutes := none, updatedAt := some 5, deleted := false } : Store × Nat).2 = 1 :=
  ((upsert_acceptance 7 []
      { id := "w", title := none, start := none, allDay := false,
        reminderMinutes := none, updatedAt := some 5, deleted := false }
      [] []).1 (by decide)).mpr (by decide)

/-! ### C3: full replacement on acceptance, tie goes to the later write -/

/-- First of two upserts for id "a" that both carry `updatedAt` 0. -/
def c3a : Candidate :=
  { id := "a", title := some "first", start := none, allDay := false,
    reminderMinutes := none, updatedAt := some 0, deleted := false }

/-- Second of two upserts for id "a" that both carry `updatedAt` 0. -/
def c3b : Candidate :=
  { id := "a", title := some "second", start := none, allDay := false,
    reminderMinutes := none, updatedAt := some 0, deleted := false }

/-- C3 counterexample: two upserts for the same id with equal `updatedAt` 0:
the handler assigns the first one the wall-clock time (1000), so the second
(still defaulted to 0) is rejected and the earlier-processed record remains
stored, contradicting later-processed-wins at this input. -/
theorem tie_zero_counterexample :
    getById ((applyUpserts 1000 [] [c3a, c3b]).1) "a" = some (normalizeUpsert 1000 c3a) ∧
      getById ((applyUpserts 1000 [] [c3a, c3b]).1) "a" ≠ some (normalizeUpsert 1000 c3b) := by
  constructor
  · decide
  · decide

/-- First of two upserts for id "a" carrying the equal positive `updatedAt` 3. -/
def c3p : Candidate :=
  { id := "a", title := some "first", start := none, allDay := false,
    reminderMinutes := none, updatedAt := some 3, deleted := false }

/-- Second of two upserts for id "a" carrying the equal positive `updatedAt` 3. -/
def c3q : Candidate :=
  { id := "a", title := some "second", start := some "2024-01-01", allDay := true,
    reminderMinutes := some 15, updatedAt := some 3, deleted := false }

/-- C3 (amended): an accepted candidate (non-empty id, defaulted `updatedAt`
greater-or-equal to the stored record's) replaces the stored record in full —
the stored value becomes exactly its normalized record, no field-level merge —
and contributes 1 to the accepted count; and of two upserts for the same id
with equal positive `updatedAt` (at least the stored timestamp), the
later-processed one is the record that remains stored.  (When both carry
`updatedAt` 0 the first wins instead, because it is assigned the wall-clock
time; see the counterexample.) -/
theorem tie_acceptance (now : Nat) (db : Store) (inc : Candidate) (r : EventRec)
    (c1 c2 : Candidate) (u : Nat) :
    (inc.id ≠ "" → getById db inc.id = some r → r.updatedAt ≤ inc.updatedAt.getD 0 →
      upsertOne now db inc = (setById db inc.id (normalizeUpsert now inc), 1)) ∧
    (c1.id = c2.id → c1.id ≠ "" → c1.updatedAt = some u → c2.updatedAt = some u →
      0 < u → ((getById db c1.id).map (fun e => e.updatedAt)).getD 0 ≤ u →
      getById ((applyUpserts now db [c1, c2]).1) c1.id = some (normalizeUpsert now c2)) := by
  constructor
  · intro hid hcur hle
    simp [upsertOne, hid, hcur, hle]
  · intro hideq hid hu1 hu2 hupos hstore
    have hu0 : u ≠ 0 := by omega
    have hnorm1u : (normalizeUpsert now c1).updatedAt = u := by
      simp [normalizeUpsert, hu1, hu0]
    have hdb1 : (upsertOne now db c1).1 = setById db c1.id (normalizeUpsert now c1) := by
      rcases hcur : getById db c1.id with _ | r0
      · simp [upsertOne, hid, hcur]
      · have hle : r0.updatedAt ≤ c1.updatedAt.getD 0 := by
          rw [hu1]
          simpa [hcur] using hstore
        simp [upsertOne, hid, hcur, hle]
    have hget1 : getById (setById db c1.id (normalizeUpsert now c1)) c1.id =
        some (normalizeUpsert now c1) :=
      getById_setById_self db c1.id _ rfl
    have hfin : (applyUpserts now db [c1, c2]).1 =
        (upsertOne now (upsertOne now db c1).1 c2).1 := by
      simp [applyUpserts]
    have hid2 : c2.id ≠ "" := hideq ▸ hid
    have hle2 : (normalizeUpsert now c1).updatedAt ≤ c2.updatedAt.getD 0 := by
      rw [hnorm1u, hu2]
      simp
    rw [hfin, hdb1, hideq]
    have hget1b : getById (setById db c2.id (normalizeUpsert now c1)) c2.id =
        some (normalizeUpsert now c1) := by
      rw [← hideq]
      exact hget1
    simp [upsertOne, hid2, hget1b, hle2,
      getById_setById_self _ c2.id (normalizeUpsert now c2) rfl]

/-- C3 witness: the tie clause at the concrete pair `c3p`, `c3q` (equal
positive `updatedAt` 3) from the empty store: the later upsert is stored. -/
theorem tie_acceptance_witness :
    getById ((applyUpserts 50 [] [c3p, c3q]).1) "a" = some (normalizeUpsert 50 c3q) := by
  have h := (tie_acceptance 50 [] c3p (mkTombstone "x" 0) c3p c3q 3).2
    rfl (by decide) rfl rfl (by decide) (by decide)
  simpa [c3p] using h

/-! ### C4: incremental pull -/

/-- C4: `listSince` returns a permutation of exactly the records whose
`updatedAt` is strictly greater than the threshold — all records when the
threshold is 0 — sorted ascending by `updatedAt`; membership ignores the
`deleted` flag, so tombstones are included under the same filter. -/
theorem listSince_spec (db : Store) (since : Nat) :
    (listSince db since).Perm
        (if 0 < since then db.filter (fun e => since < e.updatedAt) else db) ∧
      (listSince db since).Pairwise (fun a b => a.updatedAt ≤ b.updatedAt) ∧
      ∀ e : EventRec, e ∈ listSince db since ↔
        e ∈ db ∧ (0 < since → since < e.updatedAt) := by
  have hperm : (listSince db since).Perm
      (if 0 < since then db.filter (fun e => since < e.updatedAt) else db) := by
    unfold listSince
    exact List.mergeSort_perm _ _
  refine ⟨hperm, ?_, ?_⟩
  · unfold listSince
    have h := @List.sorted_mergeSort EventRec
      (fun a b => decide (a.updatedAt ≤ b.updatedAt))
      (fun a b c => by
        simp only [decide_eq_true_eq]
        exact Nat.le_trans)
      (fun a b => by
        simpa using Nat.le_total a.updatedAt b.updatedAt)
      (if 0 < since then db.filter (fun e => since < e.updatedAt) else db)
    simpa [List.Sorted] using h
  · intro e
    rw [hperm.mem_iff]
    by_cases h0 : 0 < since
    · simp [h0, List.mem_filter]
    · simp [h0]

/-- C4 witness: a two-record store with threshold 1 keeps only the newer
record, tombstone included. -/
theorem listSince_spec_witness :
    ({ id := "b", title := "", start := "", allDay := false, reminderMinutes := none,
       updatedAt := 2, deleted := true } : EventRec) ∈
      listSince [{ id := "a", title := "", start := "", allDay := false,
                   reminderMinutes := none, updatedAt := 1, deleted := false },
                 { id := "b", title := "", start := "", allDay := false,
                   reminderMinutes := none, updatedAt := 2, deleted := true }] 1 := by
  have h := (listSince_spec
    [{ id := "a", title := "", start := "", allDay := false,
       reminderMinutes := none, updatedAt := 1, deleted := false },
     { id := "b", title := "", start := "", allDay := false,
       reminderMinutes := none, updatedAt := 2, deleted := true }] 1).2.2
    { id := "b", title := "", start := "", allDay := false, reminderMinutes := none,
      updatedAt := 2, deleted := true }
  exact h.mpr (by decide)

/-! ### C5: tombstone creation for an unseen id -/

/-- C5: deleting an id with no stored record appends a brand-new tombstone
(`deleted` true, `updatedAt` equal to the mark timestamp), counts it as
affected, and a pull with threshold 0 returns it. -/
theorem tombstone_creation (db : Store) (i : String) (markU : Nat)
    (hne : i ≠ "") (habs : getById db i = none) :
    applyDeletes markU db [i] = (db ++ [mkTombstone i markU], 1) ∧
      mkTombstone i markU ∈ listSince (applyDeletes markU db [i]).1 0 := by
  have h1 : applyDeletes markU db [i] = (db ++ [mkTombstone i markU], 1) := by
    simp [applyDeletes, deleteOne, hne, habs, getById_none_setById db i _ habs]
  refine ⟨h1, ?_⟩
  rw [h1]
  have hmem : mkTombstone i markU ∈ db ++ [mkTombstone i markU] := by
    simp
  have hperm : (listSince (db ++ [mkTombstone i markU]) 0).Perm
      (db ++ [mkTombstone i markU]) := by
    unfold listSince
    simpa using List.mergeSort_perm (db ++ [mkTombstone i markU]) _
  exact hperm.mem_iff.mpr hmem

/-- C5 witness: deleting the unseen id "z" with mark timestamp 5 in the
empty store. -/
theorem tombstone_creation_witness :
    applyDeletes 5 [] ["z"] = ([mkTombstone "z" 5], 1) := by
  have h := (tombstone_creation [] "z" 5 (by decide) rfl).1
  simpa using h

/-! ### C6: empty batch handling -/

/-- Whether a response is a validation failure (`res.status(400)` with an
`error` body) as opposed to an `ok` success. -/
def ApiResp.isInvalid : ApiResp → Bool
  | .ok _ => false
  | .invalid _ => true

/-- C6 counterexample: an empty upsert or delete batch is answered with the
success response `{ok: true, 0}` — not a validation failure — so the claim
that an empty batch is surfaced as a validation failure distinguished from
success is false at this input. -/
theorem empty_batch_counterexample :
    (upsertHandler 1000 [] []).2 = ApiResp.ok 0 ∧
      (deleteHandler 1000 [] none []).2 = ApiResp.ok 0 ∧
      ((upsertHandler 1000 [] []).2).isInvalid = false ∧
      ((deleteHandler 1000 [] none []).2).isInvalid = false := by
  refine ⟨rfl, rfl, rfl, rfl⟩

/-- C6 (amended): an upsert or delete request carrying an empty batch
returns immediately — without enqueueing any store work — with the success
response `{ok: true, count: 0}`; it is a no-op success, not a validation
failure. -/
theorem empty_batch_noop (now : Nat) (db : Store) (u : Option Nat) :
    upsertHandler now db [] = (db, ApiResp.ok 0) ∧
      deleteHandler now db u [] = (db, ApiResp.ok 0) ∧
      ((upsertHandler now db []).2).isInvalid = false := by
  refine ⟨rfl, rfl, rfl⟩

/-! ### C7: pruning permanently-gone subscriptions -/

theorem pushRound_stillValid (outcome : Subscription → Delivery) :
    ∀ (subs : List Subscription) (acc : Nat × Nat × List Subscription),
      (subs.foldl (fun acc sub =>
        match outcome sub with
        | .delivered => (acc.1 + 1, acc.2.1, acc.2.2 ++ [sub])
        | .failed st =>
          (acc.1, acc.2.1 + 1,
            if st == some 404 || st == some 410 then acc.2.2
            else acc.2.2 ++ [sub])) acc).2.2 =
        acc.2.2 ++ subs.filter (fun s => keepAfter (outcome s)) := by
  intro subs
  induction subs with
  | nil =>
    intro acc
    simp
  | cons s tl ih =>
    intro acc
    rw [List.foldl_cons, List.filter_cons, ih]
    rcases hout : outcome s with _ | st
    · simp [hout, keepAfter]
    · by_cases hst : (st == some 404 || st == some 410) = true
      · simp [hout, keepAfter, hst]
      · simp [hout, keepAfter, hst]

/-- C7: a broadcast round (credentials present, nonempty registry) replaces
the registry with exactly the subscriptions whose delivery did not fail with
a permanent-gone status (404/410): gone subscriptions are removed, every
other delivery outcome retains the subscription. -/
theorem prune_on_gone (subs : List Subscription) (outcome : Subscription → Delivery)
    (hsubs : subs ≠ []) :
    (sendTestToAll true subs outcome).1 = subs.filter (fun s => keepAfter (outcome s)) ∧
      ∀ s : Subscription, s ∈ (sendTestToAll true subs outcome).1 ↔
        s ∈ subs ∧ keepAfter (outcome s) = true := by
  have hempty : subs.isEmpty = false := by
    simpa [List.isEmpty_iff] using hsubs
  have hmain : (sendTestToAll true subs outcome).1 =
      subs.filter (fun s => keepAfter (outcome s)) := by
    simp only [sendTestToAll, Bool.not_true, Bool.false_eq_true, if_false, hempty,
      pushRound]
    simpa using pushRound_stillValid outcome subs (0, 0, [])
  refine ⟨hmain, ?_⟩
  intro s
  rw [hmain]
  simp [List.mem_filter]

/-- A registered subscription used by the pruning witness. -/
def subW : Subscription :=
  { endpoint := "https://push.example/e1", p256dh := "p", auth := "a",
    ua := "ua", createdAt := 1 }

/-- C7 witness: a one-subscription registry whose delivery fails with 410
is emptied by the round. -/
theorem prune_on_gone_witness :
    (sendTestToAll true [subW] (fun _ => Delivery.failed (some 410))).1 = [] := by
  have h := (prune_on_gone [subW] (fun _ => Delivery.failed (some 410)) (by decide)).1
  simpa [keepAfter] using h

/-! ### C8: idempotent registration -/

/-- C8: registering an endpoint already present (with well-formed fields) is
a no-op success answering the unchanged count; a second registration of the
same endpoint leaves the registry unchanged and answers the same count as
the first; and registration preserves endpoint uniqueness of the registry. -/
theorem register_idempotent (subs : List Subscription)
    (endpoint p256dh auth ua ua2 : String) (now now2 : Nat)
    (he : endpoint ≠ "") (hp : p256dh ≠ "") (ha : auth ≠ "") :
    (subs.any (fun s => s.endpoint == endpoint) = true →
      register subs endpoint p256dh auth ua now = (subs, ApiResp.ok subs.length)) ∧
      ((register (register subs endpoint p256dh auth ua now).1
          endpoint p256dh auth ua2 now2).1 =
        (register subs endpoint p256dh auth ua now).1 ∧
       (register (register subs endpoint p256dh auth ua now).1
          endpoint p256dh auth ua2 now2).2 =
        ApiResp.ok (register subs endpoint p256dh auth ua now).1.length) ∧
      ((subs.map (fun s => s.endpoint)).Nodup →
        ((register subs endpoint p256dh auth ua now).1.map
          (fun s => s.endpoint)).Nodup) := by
  have hvalid : ¬(endpoint = "" ∨ p256dh = "" ∨ auth = "") := by
    simp [he, hp, ha]
  refine ⟨?_, ?_, ?_⟩
  · intro hex
    simp [register, hvalid, hex]
  · have hmem1 : ((register subs endpoint p256dh auth ua now).1).any
        (fun s => s.endpoint == endpoint) = true := by
      by_cases hex : subs.any (fun s => s.endpoint == endpoint) = true
      · simp [register, hvalid, hex]
      · simp [register, hvalid, hex]
    have key : ∀ l : List Subscription, l.any (fun s => s.endpoint == endpoint) = true →
        register l endpoint p256dh auth ua2 now2 = (l, ApiResp.ok l.length) := by
      intro l hl
      simp [register, hvalid, hl]
    have h2 := key (register subs endpoint p256dh auth ua now).1 hmem1
    exact ⟨by rw [h2], by rw [h2]⟩
  · intro hnd
    by_cases hex : subs.any (fun s => s.endpoint == endpoint) = true
    · simpa [register, hvalid, hex] using hnd
    · have hnot : endpoint ∉ subs.map (fun s => s.endpoint) := by
        intro hmem
        rcases List.mem_map.mp hmem with ⟨s, hs, hse⟩
        exact hex (List.any_eq_true.mpr ⟨s, hs, by simp [hse]⟩)
      simp only [register, hvalid, if_neg, hex, Bool.false_eq_true, if_false]
      simp [List.nodup_append, hnd, hnot]

/-- C8 witness: registering endpoint "e" twice on the empty registry answers
subscriber count 1 both times and leaves a single entry. -/
theorem register_idempotent_witness :
    (register (register [] "e" "p" "a" "u" 1).1 "e" "p" "a" "u2" 2).2 = ApiResp.ok 1 := by
  have h := (register_idempotent [] "e" "p" "a" "u" "u2" 1 2
    (by decide) (by decide) (by decide)).2.1.2
  exact h.trans (by decide)

/-! ### C9: tombstoning an existing record preserves its content fields -/

/-- C9: when a delete tombstones an id that has a stored record (mark
timestamp at least the record's `updatedAt`), the stored record keeps its
id, title, start, allDay and reminderMinutes unchanged; only `deleted` and
`updatedAt` are overwritten. -/
theorem delete_frame (markU : Nat) (db : Store) (i : String) (curr : EventRec)
    (hne : i ≠ "") (hcur : getById db i = some curr)
    (hle : curr.updatedAt ≤ markU) :
    ∃ r : EventRec, getById (applyDeletes markU db [i]).1 i = some r ∧
      r.id = curr.id ∧ r.title = curr.title ∧ r.start = curr.start ∧
      r.allDay = curr.allDay ∧ r.reminderMinutes = curr.reminderMinutes ∧
      r.deleted = true ∧ r.updatedAt = markU := by
  have hid : curr.id = i := (getById_mem db i curr hcur).2
  have h1 : (applyDeletes markU db [i]).1 =
      setById db i { curr with deleted := true, updatedAt := markU } := by
    simp [applyDeletes, deleteOne, hne, hcur, hle]
  refine ⟨{ curr with deleted := true, updatedAt := markU }, ?_, rfl, rfl, rfl, rfl,
    rfl, rfl, rfl⟩
  rw [h1]
  exact getById_setById_self db i _ hid

/-- The stored record used by the C9 witness. -/
def delW : EventRec :=
  { id := "a", title := "Ride", start := "2024-01-01T10:00", allDay := false,
    reminderMinutes := some 30, updatedAt := 3, deleted := false }

/-- C9 witness: tombstoning the stored record for "a" (updatedAt 3, title
"Ride") with mark timestamp 9 keeps the content fields and overwrites only
`deleted` and `updatedAt`. -/
theorem delete_frame_witness :
    ((getById (applyDeletes 9 [delW] ["a"]).1 "a").map
      fun r => (r.title, r.reminderMinutes, r.deleted, r.updatedAt)) =
      some ("Ride", some 30, true, 9) := by
  rcases delete_frame 9 [delW] "a" delW (by decide) rfl (by decide) with
    ⟨r, h1, _, h3, _, _, h6, h7, h8⟩
  rw [h1]
  simp [h3, h6, h7, h8, delW]

/-! ### C10: shape invariant of reachable stores -/

theorem normalizeUpsert_updatedAt_pos (now : Nat) (inc : Candidate)
    (hnow : 0 < now) : 0 < (normalizeUpsert now inc).updatedAt := by
  simp only [normalizeUpsert]
  by_cases h : inc.updatedAt.getD 0 = 0
  · simpa [h] using hnow
  · simpa [h] using Nat.pos_of_ne_zero h

theorem markUOf_pos (now : Nat) (u : Option Nat) (hnow : 0 < now) :
    0 < markUOf now u := by
  simp only [markUOf]
  by_cases h : u.getD 0 = 0
  · simpa [h] using hnow
  · simpa [h] using Nat.pos_of_ne_zero h

theorem mem_upsertOne (now : Nat) (db : Store) (inc : Candidate) (e : EventRec)
    (h : e ∈ (upsertOne now db inc).1) : e ∈ db ∨ e = normalizeUpsert now inc := by
  by_cases hid : inc.id = ""
  · exact Or.inl (by simpa [upsertOne, hid] using h)
  · rcases hcur : getById db inc.id with _ | curr
    · simp only [upsertOne, hid, if_neg, hcur, not_false_eq_true] at h
      exact mem_setById db inc.id _ e h
    · by_cases hle : curr.updatedAt ≤ inc.updatedAt.getD 0
      · simp only [upsertOne, hid, if_neg, hcur, hle, if_pos, not_false_eq_true] at h
        exact mem_setById db inc.id _ e h
      · exact Or.inl (by simpa [upsertOne, hid, hcur, hle] using h)

theorem mem_deleteOne (markU : Nat) (db : Store) (i : String) (e : EventRec)
    (h : e ∈ (deleteOne markU db i).1) : e ∈ db ∨ e.updatedAt = markU := by
  by_cases hid : i = ""
  · exact Or.inl (by simpa [deleteOne, hid] using h)
  · rcases hcur : getById db i with _ | curr
    · simp only [deleteOne, hid, if_neg, hcur, not_false_eq_true] at h
      rcases mem_setById db i _ e h with h2 | h2
      · exact Or.inl h2
      · exact Or.inr (by rw [h2]; rfl)
    · by_cases hle : curr.updatedAt ≤ markU
      · simp only [deleteOne, hid, if_neg, hcur, hle, if_pos, not_false_eq_true] at h
        rcases mem_setById db i _ e h with h2 | h2
        · exact Or.inl h2
        · exact Or.inr (by rw [h2])
      · exact Or.inl (by simpa [deleteOne, hid, hcur, hle] using h)

theorem applyUpserts_store_inv (now : Nat) (l : List Candidate) (hnow : 0 < now) :
    ∀ (db : Store) (n : Nat), (∀ e ∈ db, 0 < e.updatedAt) →
      ∀ e ∈ (l.foldl (fun acc inc =>
          let r := upsertOne now acc.1 inc
          (r.1, acc.2 + r.2)) (db, n)).1, 0 < e.updatedAt := by
  induction l with
  | nil =>
    intro db n hdb e he
    exact hdb e he
  | cons c tl ih =>
    intro db n hdb e he
    rw [List.foldl_cons] at he
    refine ih (upsertOne now db c).1 _ ?_ e he
    intro x hx
    rcases mem_upsertOne now db c x hx with h | h
    · exact hdb x h
    · exact h ▸ normalizeUpsert_updatedAt_pos now c hnow

theorem applyDeletes_store_inv (markU : Nat) (l : List String) (hm : 0 < markU) :
    ∀ (db : Store) (n : Nat), (∀ e ∈ db, 0 < e.updatedAt) →
      ∀ e ∈ (l.foldl (fun acc i =>
          let r := deleteOne markU acc.1 i
          (r.1, acc.2 + r.2)) (db, n)).1, 0 < e.updatedAt := by
  induction l with
  | nil =>
    intro db n hdb e he
    exact hdb e he
  | cons i tl ih =>
    intro db n hdb e he
    rw [List.foldl_cons] at he
    refine ih (deleteOne markU db i).1 _ ?_ e he
    intro x hx
    rcases mem_deleteOne markU db i x hx with h | h
    · exact hdb x h
    · exact h ▸ hm

/-- C10: every record of every store reachable from the empty store through
the upsert/delete mutations (each processed at a positive wall-clock time)
has a positive `updatedAt` — never 0 or absent — and a candidate whose
`updatedAt` is absent or 0 is assigned the wall-clock time when normalized.
(The remaining shape facts — id/title/start strings, allDay/deleted
booleans, reminderMinutes number-or-null — are enforced by the `EventRec`
type, which mirrors the handlers' `String(...)`, `!!...` and `Number(...)`
coercions.) -/
theorem store_shape_invariant (ops : List Op) (now : Nat) (inc : Candidate)
    (hnow : ∀ op ∈ ops, 0 < opNow op) :
    (∀ e ∈ runOps ops, 0 < e.updatedAt) ∧
      (inc.updatedAt.getD 0 = 0 → (normalizeUpsert now inc).updatedAt = now) := by
  constructor
  · have key : ∀ (l : List Op) (db : Store), (∀ e ∈ db, 0 < e.updatedAt) →
        (∀ op ∈ l, 0 < opNow op) → ∀ e ∈ l.foldl applyOp db, 0 < e.updatedAt := by
      intro l
      induction l with
      | nil =>
        intro db hdb _ e he
        exact hdb e he
      | cons op tl ih =>
        intro db hdb hl e he
        rw [List.foldl_cons] at he
        refine ih (applyOp db op) ?_ (fun t ht => hl t (List.mem_cons_of_mem op ht)) e he
        have hop : 0 < opNow op := hl op (List.mem_cons_self op tl)
        cases op with
        | upsert n cs =>
          exact applyUpserts_store_inv n cs (by simpa [opNow] using hop) db 0 hdb
        | tombstone n u ids =>
          exact applyDeletes_store_inv (markUOf n u) ids
            (markUOf_pos n u (by simpa [opNow] using hop)) db 0 hdb
    intro e he
    exact key ops [] (by simp) hnow e he
  · intro h0
    simp [normalizeUpsert, h0]

/-- An upsert candidate with absent `updatedAt`, used by the C10 witness. -/
def c10w : Candidate :=
  { id := "a", title := some "T", start := none, allDay := false,
    reminderMinutes := none, updatedAt := none, deleted := false }

/-- C10 witness: after an upsert with absent `updatedAt` (assigned the wall
clock 77) and a delete creating a tombstone at mark 99, both stored records
have positive `updatedAt`; and a defaulted candidate is stamped with the
wall clock. -/
theorem store_shape_invariant_witness :
    0 < (normalizeUpsert 77 c10w).updatedAt ∧
      (normalizeUpsert 77 c10w).updatedAt = 77 := by
  have h := store_shape_invariant [Op.upsert 77 [c10w], Op.tombstone 99 none ["b"]]
    77 c10w (by decide)
  exact ⟨h.1 (normalizeUpsert 77 c10w) (by decide), h.2 rfl⟩

end RdvTaxi
